import Mathlib

/-!
# Verification of the video-stream-recorder core

A shallow embedding of the recorder's core components, translated from the
Go sources:

* the time-indexed durable store (`database_store`, `database_last_5`,
  `database_get`, the retention sweep of `database_worker`) backed by a
  bbolt bucket keyed by the 8-byte big-endian encoding of the arrival
  timestamp;
* the FIFO deduplication cache (`FIFOCache.Set`, `Size`, `Clear`);
* the HLS fetch loop (`processSegments`, master-variant selection) and the
  live-manifest builder (`buildLive` from `handleLiveStream`).

Modelling conventions: Go machine integers become `Int`/`Nat` with explicit
`% 2 ^ 64` where the code casts through `uint64`; `float64` durations are
only ever carried, never computed with, so they are represented as `Rat`;
the bbolt bucket is an association list sorted strictly ascending in key
order, which byte-lexicographic order on the 8-byte keys coincides with
(`bytesLt_itob` below); HTTP, the filesystem and the system clock are
oracles passed in as function parameters.
-/

set_option maxRecDepth 8000

/-- `DatabaseItem` from the Go source: `ID uint64`, `Name string`,
`Len float64` (segment duration, carried verbatim, modelled as `Rat`),
`T int64` (arrival timestamp in nanoseconds). -/
structure DatabaseItem where
  ID : Nat
  Name : String
  Len : Rat
  T : Int
deriving DecidableEq

/-- `w` big-endian base-256 digits of `n` (most significant first). -/
def digitsBE : Nat → Nat → List Nat
  | 0, _ => []
  | w + 1, n => n / 256 ^ w :: digitsBE w (n % 256 ^ w)

/-- `itob` from the Go source: `binary.BigEndian.PutUint64(b, uint64(v))`
on an 8-byte buffer.  The cast `uint64(v)` of a 64-bit `int` is the value
modulo `2 ^ 64`. -/
def itob (v : Int) : List Nat :=
  digitsBE 8 (v.emod (2 ^ 64)).toNat

/-- Go `bytes.Compare(a, b) < 0`: strict lexicographic order on byte
strings (a proper leading slice is smaller). -/
def bytesLt : List Nat → List Nat → Bool
  | [], [] => false
  | [], _ :: _ => true
  | _ :: _, [] => false
  | a :: as, b :: bs => if a < b then true else if b < a then false else bytesLt as bs

/-- The numeric value encoded by the 8-byte key `itob v`, i.e.
`uint64(v)`.  Lexicographic order of the byte keys equals the natural
order of these values (`bytesLt_itob`), so the bucket is modelled with
`Nat` keys ordered by `<`. -/
def keyOf (v : Int) : Nat :=
  (v.emod (2 ^ 64)).toNat

/-- The bbolt bucket `"main"`: a B-tree modelled as an association list
sorted strictly ascending by key, together with the bucket's
`NextSequence` counter (a `uint64`). -/
structure Bucket where
  seq : Nat
  entries : List (Nat × DatabaseItem)
deriving DecidableEq

def emptyBucket : Bucket :=
  { seq := 0, entries := [] }

/-- bbolt `Put`: insert or replace, keeping the entries sorted in
ascending key order (B-tree semantics: at most one value per key). -/
def putEntry (k : Nat) (it : DatabaseItem) : List (Nat × DatabaseItem) → List (Nat × DatabaseItem)
  | [] => [(k, it)]
  | e :: es =>
    if k < e.1 then (k, it) :: e :: es
    else if k = e.1 then (k, it) :: es
    else e :: putEntry k it es

/-- `database_store` from the Go source: `ID, _ := bucket.NextSequence()`
(the `uint64` counter is incremented and returned), `item.ID = ID`, then
`bucket.Put(itob(int(item.T)), encoded)`.  JSON encoding round-trips the
record, so the value is kept structured. -/
def database_store (b : Bucket) (item : DatabaseItem) : Bucket :=
  let ID := (b.seq + 1) % 2 ^ 64
  { seq := ID, entries := putEntry (keyOf item.T) { item with ID := ID } b.entries }

/-- `database_last_5` from the Go source.  The cursor walks backwards from
`Last()`, collecting at most 7 values into `tmp` (newest first); the copy
loop `for i := len(tmp) - 1; i > 0; i--` then emits `tmp` in ascending
order but stops before index 0, so the most recently stored record in
`tmp` is dropped from the returned list. -/
def database_last_5 (b : Bucket) : List DatabaseItem :=
  let tmp := (b.entries.reverse.take 7).map Prod.snd
  tmp.reverse.dropLast

/-- Scan loop of `database_get`, starting at the `Seek` position: the code
executes `if bytes.Compare(k, end) < 0 { return nil }` *before* appending,
so it stops (returning what it has) at the first key below `end` and keeps
collecting keys that are `≥ end`. -/
def dbGetScan (endK : Nat) : List (Nat × DatabaseItem) → List DatabaseItem
  | [] => []
  | e :: es => if e.1 < endK then [] else e.2 :: dbGetScan endK es

/-- `database_get` from the Go source, on the path where both `strconv.Atoi`
calls succeed (`si` = start in Unix seconds, `li` = duration in minutes):
`start := itob(si * 1000000000)`, `end := itob(si + li*60*1000000000)`
(note `si` is *not* scaled by 1e9 in `end`), `cursor.Seek(start)` positions
at the first key `≥ start` in byte order, then `dbGetScan`. -/
def database_get (b : Bucket) (si li : Int) : List DatabaseItem :=
  let start := keyOf (si * 1000000000)
  let endK := keyOf (si + li * 60 * 1000000000)
  dbGetScan endK (b.entries.dropWhile (fun e => decide (e.1 < start)))

/-- Modelled from the spec (for comparison with `database_get`): the
intended range query returning exactly the records with key in
`[itob(si*1e9), itob(si*1e9 + li*60*1e9))`, in ascending key order. -/
def specRangeQuery (b : Bucket) (si li : Int) : List DatabaseItem :=
  (b.entries.filter fun e =>
    decide (keyOf (si * 1000000000) ≤ e.1) &&
    decide (e.1 < keyOf (si * 1000000000 + li * 60 * 1000000000))).map Prod.snd

/-- One sweep of the cursor loop inside `database_worker`'s transaction.
The loop walks ascending from `First()` and executes
`if bytes.Compare(k, itob(int(current))) < 0 { return nil }` *before*
deleting, so it stops at the first key below the cutoff and deletes every
record whose key is `≥` the cutoff (removing its blob file first).
Returns the remaining entries and the names of the removed blobs. -/
def sweepScan (cutoff : Nat) : List (Nat × DatabaseItem) → List (Nat × DatabaseItem) × List String
  | [] => ([], [])
  | e :: es =>
    if e.1 < cutoff then (e :: es, [])
    else
      let r := sweepScan cutoff es
      (r.1, e.2.Name :: r.2)

/-- The body of one `database_worker` iteration applied to the store, for a
given value of `current`. -/
def database_worker_sweep (b : Bucket) (current : Int) : Bucket × List String :=
  let r := sweepScan (keyOf current) b.entries
  ({ b with entries := r.1 }, r.2)

/-- The cutoff computed at the top of each `database_worker` iteration:
`current := time.Now().UnixNano() - int64(*flagTail*60*60*int(time.Nanosecond))`.
`time.Nanosecond` is the `Duration` constant 1, so the subtrahend is
`flagTail * 60 * 60 * 1` nanoseconds. -/
def retentionCutoff (now flagTail : Int) : Int :=
  now - flagTail * 60 * 60 * 1

/-- Modelled from the spec (for comparison with `retentionCutoff`): the
intended cutoff, with the `--tail` flag value interpreted as hours, i.e.
`now - flagTail*3600*1e9` nanoseconds. -/
def specRetentionCutoff (now flagTail : Int) : Int :=
  now - flagTail * 3600 * 1000000000

/-- Modelled from the spec (for comparison with `database_worker_sweep`):
`DeleteBefore(cutoff)` removes exactly the records with key `< cutoff`. -/
def specDeleteBefore (b : Bucket) (cutoff : Int) : Bucket :=
  { b with entries := b.entries.filter fun e => decide (keyOf cutoff ≤ e.1) }

/-- Content of the live manifest rendered by `handleLiveStream`
(server.go): the fixed `#EXT-X-TARGETDURATION` and `#EXT-X-VERSION`
header values, the `#EXT-X-MEDIA-SEQUENCE` tag, and one
`#EXTINF:<duration>` + file-name pair per item, in list order. -/
structure LiveManifest where
  targetDuration : Nat
  version : Nat
  mediaSequence : Nat
  entries : List (Rat × String)
deriving DecidableEq

/-- `handleLiveStream` (server.go), non-`utc` path:
`items := database_last_5()`; `len(items) <= 0` yields 404 (`none`);
otherwise `last := items[len(items)-1]` (the *last* element of the
ascending list) supplies the `#EXT-X-MEDIA-SEQUENCE` value `last.ID`, and
each item is rendered in order. -/
def buildLive (b : Bucket) : Option LiveManifest :=
  let items := database_last_5 b
  match items.getLast? with
  | none => none
  | some last =>
    some { targetDuration := 2, version := 4, mediaSequence := last.ID,
           entries := items.map fun it => (it.Len, it.Name) }

/-- Sample arrival instant used by the concrete scenarios
(about 2023-11-14 in nanoseconds, well below `2 ^ 63`). -/
def sampleT : Int := 1700000000000000000

def sampleItem1 : DatabaseItem := { ID := 0, Name := "a.ts", Len := 2, T := sampleT }

def sampleItem2 : DatabaseItem := { ID := 0, Name := "b.ts", Len := 2, T := sampleT + 1000000000 }

def sampleItem3 : DatabaseItem := { ID := 0, Name := "c.ts", Len := 2, T := sampleT + 2000000000 }

/-- The store of spec Scenario 1: three appends at `T`, `T + 1e9`,
`T + 2e9` nanoseconds, duration 2.0 each. -/
def sampleStore3 : Bucket :=
  database_store (database_store (database_store emptyBucket sampleItem1) sampleItem2) sampleItem3

/-- A store holding a single appended segment. -/
def sampleStore1 : Bucket :=
  database_store emptyBucket sampleItem1

/-- `FIFOCache` from the Go source.  The `cache` map (a set of keys) is
modelled as the list of its keys, `listq` is `container/list` front to
back (`PushFront` conses, `Back` is the last element).  `Set` keeps the
two in lockstep exactly as the code does. -/
structure FIFOCache where
  cache : List String
  listq : List String
  maxSize : Nat
deriving DecidableEq

/-- `NewFIFOCache`: empty map, empty list, given capacity. -/
def NewFIFOCache (maxSize : Nat) : FIFOCache :=
  { cache := [], listq := [], maxSize := maxSize }

/-- The eviction loop of `Set`:
`for c.list.Len() > c.maxSize { delete the Back element from both }`.
Each pass shortens `listq` by one, so `listq.length` steps of fuel always
suffice; the fuel only makes the recursion structural. -/
def evictFuel (maxSize : Nat) : Nat → List String → List String → List String × List String
  | 0, cache, listq => (cache, listq)
  | fuel + 1, cache, listq =>
    if listq.length > maxSize then
      evictFuel maxSize fuel (cache.erase (listq.getLast?.getD "")) listq.dropLast
    else (cache, listq)

/-- `FIFOCache.Set` from the Go source: return `false` if the key is
present; otherwise record it in the map and at the front of the list, run
the eviction loop, and return `true`. -/
def FIFOCache.Set (c : FIFOCache) (url : String) : Bool × FIFOCache :=
  if url ∈ c.cache then (false, c)
  else
    let p := evictFuel c.maxSize (url :: c.listq).length (url :: c.cache) (url :: c.listq)
    (true, { c with cache := p.1, listq := p.2 })

/-- `FIFOCache.Size`: `len(c.cache)`. -/
def FIFOCache.Size (c : FIFOCache) : Nat :=
  c.cache.length

/-- `FIFOCache.Clear`: fresh map and list, capacity kept. -/
def FIFOCache.Clear (c : FIFOCache) : FIFOCache :=
  { c with cache := [], listq := [] }

/-- An operation of the cache's mutating interface. -/
inductive CacheOp where
  | set (url : String)
  | clear
deriving DecidableEq

/-- Run a sequence of `Set`/`Clear` calls against a cache. -/
def runOps (c : FIFOCache) : List CacheOp → FIFOCache
  | [] => c
  | CacheOp.set url :: ops => runOps (c.Set url).2 ops
  | CacheOp.clear :: ops => runOps c.Clear ops

/-- Run a sequence of `Set` calls, collecting the returned booleans. -/
def runSets (c : FIFOCache) : List String → List Bool × FIFOCache
  | [] => ([], c)
  | url :: urls =>
    let r := c.Set url
    let rest := runSets r.2 urls
    (r.1 :: rest.1, rest.2)

/-- A segment reference of a media playlist: `segment.URI` and
`segment.Duration` (`float64`, carried verbatim). -/
structure Segment where
  uri : String
  duration : Rat
deriving DecidableEq

/-- Observable per-segment actions of one `processSegments` run. -/
inductive FetchEvent where
  /-- `cache.Set` returned `true`: the segment download is attempted. -/
  | admitted (url : String)
  /-- `cache.Set` returned `false`: the segment is skipped. -/
  | dup (url : String)
  /-- download and file write succeeded and the record was stored. -/
  | stored (url : String) (item : DatabaseItem)
  /-- `p.fetch` returned nil: the segment is dropped, nothing stored. -/
  | dropped (url : String)
  /-- `ioutil.WriteFile` failed: `continue`, nothing stored. -/
  | writeFail (url : String)
deriving DecidableEq

/-- Mutable state touched by `processSegments`: the dedup cache, the
bucket, the blob directory (list of written paths), and a step counter
indexing the `time.Now()` oracle. -/
structure ProcState where
  cache : FIFOCache
  bucket : Bucket
  files : List String
  clock : Nat
deriving DecidableEq

/-- `processSegments` from the Go source (`HLSProcessor`).  Per non-nil
segment: `fetchurl, _ := baseURL.Parse(segment.URI)` with
`fetchurl.RawQuery = baseURL.RawQuery` (both folded into the `resolve`
oracle); if `p.cache.Set(fetchurl)` admits it, capture
`currenttime := time.Now().UnixNano()` (the `timeAt` oracle at the current
step counter), build the item `{Name: "<t>.ts", Len: duration, T: t}`,
download (`fetchOk` oracle); on success write the blob (`writeOk` oracle;
failure means `continue`), then `database_store(item)`.  Returns the final
state and the event trace in order. -/
def processSegments (resolve : String → String → String) (fetchOk : String → Bool)
    (writeOk : String → Bool) (timeAt : Nat → Int) (base : String) :
    List (Option Segment) → ProcState → ProcState × List FetchEvent
  | [], st => (st, [])
  | none :: segs, st => processSegments resolve fetchOk writeOk timeAt base segs st
  | some seg :: segs, st =>
    let fetchurl := resolve base seg.uri
    let r := st.cache.Set fetchurl
    if r.1 then
      let currenttime := timeAt st.clock
      let item : DatabaseItem :=
        { ID := 0, Name := toString currenttime ++ ".ts", Len := seg.duration, T := currenttime }
      if fetchOk fetchurl then
        if writeOk ("./files/" ++ item.Name) then
          let st' : ProcState :=
            { cache := r.2, bucket := database_store st.bucket item,
              files := ("./files/" ++ item.Name) :: st.files, clock := st.clock + 1 }
          let rest := processSegments resolve fetchOk writeOk timeAt base segs st'
          (rest.1, FetchEvent.admitted fetchurl :: FetchEvent.stored fetchurl item :: rest.2)
        else
          let st' : ProcState := { st with cache := r.2, clock := st.clock + 1 }
          let rest := processSegments resolve fetchOk writeOk timeAt base segs st'
          (rest.1, FetchEvent.admitted fetchurl :: FetchEvent.writeFail fetchurl :: rest.2)
      else
        let st' : ProcState := { st with cache := r.2, clock := st.clock + 1 }
        let rest := processSegments resolve fetchOk writeOk timeAt base segs st'
        (rest.1, FetchEvent.admitted fetchurl :: FetchEvent.dropped fetchurl :: rest.2)
    else
      let rest := processSegments resolve fetchOk writeOk timeAt base segs { st with cache := r.2 }
      (rest.1, FetchEvent.dup fetchurl :: rest.2)

/-- Does this event record a stored segment for `url`? -/
def isStoredFor (url : String) : FetchEvent → Bool
  | FetchEvent.stored u _ => u == url
  | _ => false

/-- Does this event record an admission (download attempt) for `url`? -/
def isAdmittedFor (url : String) : FetchEvent → Bool
  | FetchEvent.admitted u => u == url
  | _ => false

/-- Number of store records created for `url` in a trace. -/
def countStored (ev : List FetchEvent) (url : String) : Nat :=
  (ev.filter (isStoredFor url)).length

/-- Number of download attempts for `url` in a trace. -/
def countAdmitted (ev : List FetchEvent) (url : String) : Nat :=
  (ev.filter (isAdmittedFor url)).length

/-- A decoded manifest document, as distinguished by `m3u8.Decode`:
either a master playlist (variant URIs in listed order) or a media
playlist (segment entries, possibly nil). -/
inductive Playlist where
  | master (variants : List String)
  | media (segments : List (Option Segment))
deriving DecidableEq

/-- The master branch of `fetcher`/`fetchLoop`:
`for _, variant := range masterpl.Variants { mainurl, _ = mainurl.Parse(variant.URI); goto start_at }`.
The `goto` exits the loop during its first iteration, so only the first
listed variant is ever resolved; with no variants the body never runs and
the current URL is polled again. -/
def masterNext (resolve : String → String → String) (cur : String) (variants : List String) : String :=
  match variants with
  | [] => cur
  | v :: _ => resolve cur v

/-- One iteration of the fetch loop after decoding the document at `cur`:
a master playlist only changes the manifest URL (`masterNext`) and issues
no segment work; a media playlist runs `processSegments` with `cur` as the
base URL.  Returns the next manifest URL, the new state, and the segment
event trace of this iteration. -/
def pollStep (resolve : String → String → String) (fetchOk : String → Bool)
    (writeOk : String → Bool) (timeAt : Nat → Int) (cur : String) (doc : Playlist)
    (st : ProcState) : String × ProcState × List FetchEvent :=
  match doc with
  | Playlist.master variants => (masterNext resolve cur variants, st, [])
  | Playlist.media segs =>
    let r := processSegments resolve fetchOk writeOk timeAt cur segs st
    (cur, r.1, r.2)

/-- Initial processing state with a cache of the given capacity. -/
def initState (cap : Nat) : ProcState :=
  { cache := NewFIFOCache cap, bucket := emptyBucket, files := [], clock := 0 }

/-- The bucket invariant maintained by bbolt's B-tree: entries sorted
strictly ascending in key (hence at most one record per key). -/
def keysSorted (es : List (Nat × DatabaseItem)) : Prop :=
  es.Pairwise fun a b => a.1 < b.1

instance (es : List (Nat × DatabaseItem)) : Decidable (keysSorted es) :=
  List.instDecidablePairwise es

/-- bbolt `Get` on the modelled bucket: the value stored under key `k`. -/
def lookupKey (k : Nat) : List (Nat × DatabaseItem) → Option DatabaseItem
  | [] => none
  | e :: es => if e.1 = k then some e.2 else lookupKey k es

/-- A segment arriving 300 seconds after `sampleT`, outside the
one-minute window starting at `sampleT`. -/
def sampleItemFar : DatabaseItem :=
  { ID := 0, Name := "far.ts", Len := 2, T := sampleT + 300000000000 }

/-- Store holding one in-window record (`sampleItem1`, at `sampleT`) and
one record 300 s later, past the end of the one-minute window. -/
def sampleStoreWindow : Bucket :=
  database_store (database_store emptyBucket sampleItem1) sampleItemFar

/-- Store holding a single record whose key is 100 (a "fresh" record for
a cutoff of 50). -/
def sampleStoreFresh : Bucket :=
  database_store emptyBucket { ID := 0, Name := "fresh.ts", Len := 2, T := 100 }

/-- Store holding a single record whose key is 10 (an "expired" record
for a cutoff of 50). -/
def sampleStoreOld : Bucket :=
  database_store emptyBucket { ID := 0, Name := "old.ts", Len := 2, T := 10 }

/-- Invariant of every cache state reachable through `NewFIFOCache`,
`Set` and `Clear`: the map's key set equals the FIFO list's elements, the
list has no duplicates, and the list never exceeds the capacity. -/
def CacheInv (c : FIFOCache) : Prop :=
  c.cache.Perm c.listq ∧ c.listq.Nodup ∧ c.listq.length ≤ c.maxSize

/-- A second segment arriving at exactly `sampleT` again: same nanosecond
arrival instant as `sampleItem1`, hence the same 8-byte key. -/
def sampleItemDupT : DatabaseItem :=
  { sampleItem2 with T := sampleT }

theorem digitsBE_lt_iff : ∀ (w n m : Nat), n < 256 ^ w → m < 256 ^ w →
    ((bytesLt (digitsBE w n) (digitsBE w m) = true) ↔ n < m)
  | 0, n, m, hn, hm => by
    simp [digitsBE, bytesLt] at *
    omega
  | w + 1, n, m, hn, hm => by
    have hB : 0 < 256 ^ w := pow_pos (by norm_num) w
    obtain ⟨q1, r1, hr1, rfl⟩ : ∃ q r, r < 256 ^ w ∧ 256 ^ w * q + r = n :=
      ⟨n / 256 ^ w, n % 256 ^ w, Nat.mod_lt _ hB, Nat.div_add_mod n _⟩
    obtain ⟨q2, r2, hr2, rfl⟩ : ∃ q r, r < 256 ^ w ∧ 256 ^ w * q + r = m :=
      ⟨m / 256 ^ w, m % 256 ^ w, Nat.mod_lt _ hB, Nat.div_add_mod m _⟩
    have hd1 : (256 ^ w * q1 + r1) / 256 ^ w = q1 := by
      rw [Nat.mul_add_div hB, Nat.div_eq_of_lt hr1, Nat.add_zero]
    have hd2 : (256 ^ w * q2 + r2) / 256 ^ w = q2 := by
      rw [Nat.mul_add_div hB, Nat.div_eq_of_lt hr2, Nat.add_zero]
    have hm1 : (256 ^ w * q1 + r1) % 256 ^ w = r1 := by
      rw [Nat.mul_add_mod, Nat.mod_eq_of_lt hr1]
    have hm2 : (256 ^ w * q2 + r2) % 256 ^ w = r2 := by
      rw [Nat.mul_add_mod, Nat.mod_eq_of_lt hr2]
    simp only [digitsBE, bytesLt, hd1, hd2, hm1, hm2]
    by_cases h1 : q1 < q2
    · simp only [if_pos h1]
      refine iff_of_true (by simp) ?_
      calc 256 ^ w * q1 + r1 < 256 ^ w * q1 + 256 ^ w := Nat.add_lt_add_left hr1 _
        _ = 256 ^ w * (q1 + 1) := by ring
        _ ≤ 256 ^ w * q2 := Nat.mul_le_mul_left _ h1
        _ ≤ 256 ^ w * q2 + r2 := Nat.le_add_right _ _
    · by_cases h2 : q2 < q1
      · simp only [if_neg h1, if_pos h2]
        refine iff_of_false (by simp) (Nat.not_lt.mpr (Nat.le_of_lt ?_))
        calc 256 ^ w * q2 + r2 < 256 ^ w * q2 + 256 ^ w := Nat.add_lt_add_left hr2 _
          _ = 256 ^ w * (q2 + 1) := by ring
          _ ≤ 256 ^ w * q1 := Nat.mul_le_mul_left _ h2
          _ ≤ 256 ^ w * q1 + r1 := Nat.le_add_right _ _
      · have heq : q1 = q2 := Nat.le_antisymm (Nat.not_lt.mp h2) (Nat.not_lt.mp h1)
        subst heq
        simp only [if_neg h1, if_neg h2]
        rw [digitsBE_lt_iff w r1 r2 hr1 hr2]
        exact (Nat.add_lt_add_iff_left).symm

/-- The ad hoc byte-key arithmetic is sound: byte-lexicographic order of
the 8-byte keys produced by `itob` coincides with the natural order of
the decoded `uint64` values, which justifies modelling the bucket with
`Nat` keys compared by `<`. -/
theorem keyOf_lt (v : Int) : keyOf v < 2 ^ 64 := by
  unfold keyOf
  have h1 : v.emod 18446744073709551616 < 18446744073709551616 :=
    Int.emod_lt_of_pos v (by norm_num)
  have h2 : 0 ≤ v.emod 18446744073709551616 := Int.emod_nonneg v (by norm_num)
  rw [show ((2 : ℤ) ^ 64 : ℤ) = 18446744073709551616 by norm_num,
    show ((2 : ℕ) ^ 64 : ℕ) = 18446744073709551616 by norm_num]
  omega

theorem bytesLt_itob (a b : Int) : (bytesLt (itob a) (itob b) = true) ↔ keyOf a < keyOf b := by
  have ha : keyOf a < 256 ^ 8 := by
    rw [show (256 : ℕ) ^ 8 = 2 ^ 64 by norm_num]
    exact keyOf_lt a
  have hb : keyOf b < 256 ^ 8 := by
    rw [show (256 : ℕ) ^ 8 = 2 ^ 64 by norm_num]
    exact keyOf_lt b
  exact digitsBE_lt_iff 8 _ _ ha hb

/-- The 8-byte key determines the decoded value, hence two timestamps
agreeing modulo `2 ^ 64` collide on the same bucket slot. -/
theorem itob_inj (a b : Int) (h : itob a = itob b) : keyOf a = keyOf b := by
  by_contra hne
  rcases Nat.lt_or_ge (keyOf a) (keyOf b) with hlt | hge
  · have := (bytesLt_itob a b).mpr hlt
    rw [h] at this
    rw [bytesLt_itob b b] at this
    exact lt_irrefl _ this
  · have hlt : keyOf b < keyOf a := lt_of_le_of_ne hge (fun hq => hne hq.symm)
    have := (bytesLt_itob b a).mpr hlt
    rw [h] at this
    rw [bytesLt_itob b b] at this
    exact lt_irrefl _ this

theorem putEntry_subset (k : Nat) (it : DatabaseItem) (es : List (Nat × DatabaseItem)) :
    ∀ x ∈ putEntry k it es, x = (k, it) ∨ x ∈ es := by
  induction es with
  | nil =>
    intro x hx
    simp [putEntry] at hx
    exact Or.inl hx
  | cons e es ih =>
    intro x hx
    simp only [putEntry] at hx
    split at hx
    · rcases List.mem_cons.mp hx with h | h
      · exact Or.inl h
      · exact Or.inr h
    · split at hx
      · rcases List.mem_cons.mp hx with h | h
        · exact Or.inl h
        · exact Or.inr (List.mem_cons_of_mem _ h)
      · rcases List.mem_cons.mp hx with h | h
        · exact Or.inr (h ▸ List.mem_cons_self _ _)
        · rcases ih x h with h' | h'
          · exact Or.inl h'
          · exact Or.inr (List.mem_cons_of_mem _ h')

theorem putEntry_sorted (k : Nat) (it : DatabaseItem) (es : List (Nat × DatabaseItem))
    (h : keysSorted es) : keysSorted (putEntry k it es) := by
  unfold keysSorted at *
  induction es with
  | nil => simp [putEntry]
  | cons e es ih =>
    rcases List.pairwise_cons.mp h with ⟨he, hes⟩
    simp only [putEntry]
    split
    · next hk =>
      refine List.Pairwise.cons ?_ h
      intro b hb
      rcases List.mem_cons.mp hb with rfl | hb'
      · exact hk
      · exact lt_trans hk (he b hb')
    · split
      · next hk' =>
        exact List.Pairwise.cons (fun b hb => hk' ▸ he b hb) hes
      · next hk hk' =>
        refine List.Pairwise.cons ?_ (ih hes)
        intro b hb
        rcases putEntry_subset k it es b hb with rfl | hb'
        · omega
        · exact he b hb'

theorem putEntry_length_of_mem (k : Nat) (it : DatabaseItem) (es : List (Nat × DatabaseItem))
    (hs : keysSorted es) (hm : k ∈ es.map Prod.fst) :
    (putEntry k it es).length = es.length := by
  unfold keysSorted at hs
  induction es with
  | nil => simp at hm
  | cons e es ih =>
    rcases List.pairwise_cons.mp hs with ⟨he, hes⟩
    rw [List.map_cons] at hm
    rcases List.mem_cons.mp hm with hk | hk
    · simp only [putEntry, if_neg (by omega : ¬ k < e.1), if_pos hk]
      simp
    · rcases List.mem_map.mp hk with ⟨b, hb, rfl⟩
      have hlt : e.1 < b.1 := he b hb
      simp only [putEntry, if_neg (by omega : ¬ b.1 < e.1), if_neg (by omega : ¬ b.1 = e.1)]
      simpa using ih hes (List.mem_map.mpr ⟨b, hb, rfl⟩)

theorem lookupKey_putEntry (k : Nat) (it : DatabaseItem) (es : List (Nat × DatabaseItem)) :
    lookupKey k (putEntry k it es) = some it := by
  induction es with
  | nil => simp [putEntry, lookupKey]
  | cons e es ih =>
    simp only [putEntry]
    split
    · simp [lookupKey]
    · split
      · simp [lookupKey]
      · next h1 h2 =>
        have hne : e.1 ≠ k := by omega
        simp [lookupKey, hne, ih]

theorem keysSorted_nodup (es : List (Nat × DatabaseItem)) (hs : keysSorted es) :
    (es.map Prod.fst).Nodup := by
  unfold keysSorted at hs
  exact (List.pairwise_map.mpr hs).imp Nat.ne_of_lt

theorem evictFuel_of_le (m fuel : Nat) (cache listq : List String) (h : listq.length ≤ m) :
    evictFuel m fuel cache listq = (cache, listq) := by
  cases fuel <;> simp [evictFuel, Nat.not_lt.mpr h]

theorem evictFuel_snd (m : Nat) :
    ∀ (fuel : Nat) (cache listq : List String), listq.length ≤ m + fuel →
      (evictFuel m fuel cache listq).2 = listq.take m
  | 0, cache, listq, h => by
    simp [evictFuel, List.take_of_length_le (by omega : listq.length ≤ m)]
  | fuel + 1, cache, listq, h => by
    by_cases hgt : listq.length > m
    · simp only [evictFuel, if_pos hgt]
      rw [evictFuel_snd m fuel _ _ (by simp only [List.length_dropLast]; omega)]
      rw [List.dropLast_eq_take, List.take_take]
      congr 1
      omega
    · simp [evictFuel, hgt, List.take_of_length_le (by omega : listq.length ≤ m)]

theorem evictFuel_perm (m : Nat) :
    ∀ (fuel : Nat) (cache listq : List String), cache.Perm listq → listq.Nodup →
      (evictFuel m fuel cache listq).1.Perm (evictFuel m fuel cache listq).2
  | 0, cache, listq, hp, _ => by simpa [evictFuel] using hp
  | fuel + 1, cache, listq, hp, hd => by
    by_cases hgt : listq.length > m
    · have hne : listq ≠ [] := by
        intro h
        rw [h] at hgt
        simp at hgt
      have hback : listq.getLast?.getD "" = listq.getLast hne := by
        rw [List.getLast?_eq_getLast listq hne]
        rfl
      have hsplit : listq.dropLast ++ [listq.getLast hne] = listq :=
        List.dropLast_append_getLast hne
      have hnotmem : listq.getLast hne ∉ listq.dropLast := by
        have hnd := hd
        rw [← hsplit] at hnd
        exact fun hmem =>
          (List.nodup_append.mp hnd).2.2 hmem (List.mem_singleton_self _)
      have herase : listq.erase (listq.getLast hne) = listq.dropLast := by
        have h1 : (listq.dropLast ++ [listq.getLast hne]).erase (listq.getLast hne) =
            listq.dropLast := by
          rw [List.erase_append_right _ hnotmem, List.erase_cons_head, List.append_nil]
        rw [hsplit] at h1
        exact h1
      simp only [evictFuel, if_pos hgt]
      apply evictFuel_perm m fuel
      · rw [hback, ← herase]
        exact hp.erase _
      · exact List.Nodup.sublist (List.dropLast_sublist listq) hd
    · simpa [evictFuel, hgt] using hp

theorem Set_of_mem (c : FIFOCache) (url : String) (h : url ∈ c.cache) :
    c.Set url = (false, c) := by
  simp [FIFOCache.Set, h]

theorem Set_of_not_mem (c : FIFOCache) (url : String) (h : url ∉ c.cache)
    (hroom : c.listq.length + 1 ≤ c.maxSize) :
    c.Set url =
      (true, { cache := url :: c.cache, listq := url :: c.listq, maxSize := c.maxSize }) := by
  simp only [FIFOCache.Set, if_neg h]
  rw [evictFuel_of_le _ _ _ _ (by simpa using hroom)]

theorem Set_inv (c : FIFOCache) (url : String) (h : CacheInv c) :
    CacheInv (c.Set url).2 ∧ (c.Set url).2.maxSize = c.maxSize := by
  obtain ⟨hp, hd, hlen⟩ := h
  by_cases hmem : url ∈ c.cache
  · rw [Set_of_mem c url hmem]
    exact ⟨⟨hp, hd, hlen⟩, rfl⟩
  · have hd' : (url :: c.listq).Nodup :=
      List.Nodup.cons (fun hm => hmem (hp.mem_iff.mpr hm)) hd
    have hp' : (url :: c.cache).Perm (url :: c.listq) := hp.cons url
    simp only [FIFOCache.Set, if_neg hmem]
    refine ⟨⟨?_, ?_, ?_⟩, trivial⟩
    · exact evictFuel_perm _ _ _ _ hp' hd'
    · rw [evictFuel_snd _ _ _ _ (Nat.le_add_left _ _)]
      exact List.Nodup.sublist (List.take_sublist _ _) hd'
    · rw [evictFuel_snd _ _ _ _ (Nat.le_add_left _ _)]
      rw [List.length_take]
      dsimp only
      omega

theorem Clear_inv (c : FIFOCache) : CacheInv c.Clear ∧ c.Clear.maxSize = c.maxSize := by
  constructor
  · unfold CacheInv FIFOCache.Clear
    exact ⟨List.Perm.refl _, List.nodup_nil, by simp⟩
  · rfl

theorem runOps_inv (ops : List CacheOp) :
    ∀ c : FIFOCache, CacheInv c →
      CacheInv (runOps c ops) ∧ (runOps c ops).maxSize = c.maxSize := by
  induction ops with
  | nil => exact fun c h => ⟨h, rfl⟩
  | cons op ops ih =>
    intro c h
    cases op with
    | set url =>
      rcases Set_inv c url h with ⟨h1, h2⟩
      rcases ih _ h1 with ⟨h3, h4⟩
      exact ⟨h3, by rw [runOps, h4, h2]⟩
    | clear =>
      rcases Clear_inv c with ⟨h1, h2⟩
      rcases ih _ h1 with ⟨h3, h4⟩
      exact ⟨h3, by rw [runOps, h4, h2]⟩

theorem countAdmitted_cons (e : FetchEvent) (ev : List FetchEvent) (url : String) :
    countAdmitted (e :: ev) url =
      (if isAdmittedFor url e then 1 else 0) + countAdmitted ev url := by
  simp only [countAdmitted, List.filter_cons]
  split <;> simp [Nat.add_comm]

theorem countStored_cons (e : FetchEvent) (ev : List FetchEvent) (url : String) :
    countStored (e :: ev) url =
      (if isStoredFor url e then 1 else 0) + countStored ev url := by
  simp only [countStored, List.filter_cons]
  split <;> simp [Nat.add_comm]

theorem processSegments_dup (resolve : String → String → String) (fetchOk : String → Bool)
    (writeOk : String → Bool) (timeAt : Nat → Int) (base : String) (seg : Segment)
    (segs : List (Option Segment)) (st : ProcState)
    (hmem : resolve base seg.uri ∈ st.cache.cache) :
    processSegments resolve fetchOk writeOk timeAt base (some seg :: segs) st =
      ((processSegments resolve fetchOk writeOk timeAt base segs st).1,
        FetchEvent.dup (resolve base seg.uri) ::
          (processSegments resolve fetchOk writeOk timeAt base segs st).2) := by
  simp only [processSegments, Set_of_mem _ _ hmem]
  rfl

theorem processSegments_admit (resolve : String → String → String) (fetchOk : String → Bool)
    (writeOk : String → Bool) (timeAt : Nat → Int) (base : String) (seg : Segment)
    (segs : List (Option Segment)) (st : ProcState)
    (hmem : resolve base seg.uri ∉ st.cache.cache)
    (hroom : st.cache.listq.length + 1 ≤ st.cache.maxSize) :
    ∃ (st' : ProcState) (X : FetchEvent),
      processSegments resolve fetchOk writeOk timeAt base (some seg :: segs) st =
        ((processSegments resolve fetchOk writeOk timeAt base segs st').1,
          FetchEvent.admitted (resolve base seg.uri) :: X ::
            (processSegments resolve fetchOk writeOk timeAt base segs st').2) ∧
      st'.cache = { cache := resolve base seg.uri :: st.cache.cache,
                    listq := resolve base seg.uri :: st.cache.listq,
                    maxSize := st.cache.maxSize } ∧
      (∀ v, isAdmittedFor v X = false) ∧
      (∀ v, isStoredFor v X = true →
        v = resolve base seg.uri ∧ fetchOk (resolve base seg.uri) = true) := by
  have hset := Set_of_not_mem st.cache (resolve base seg.uri) hmem hroom
  cases hf : fetchOk (resolve base seg.uri) with
  | true =>
    cases hw : writeOk ("./files/" ++ (toString (timeAt st.clock) ++ ".ts")) with
    | true =>
      refine ⟨{ cache := { cache := resolve base seg.uri :: st.cache.cache,
                           listq := resolve base seg.uri :: st.cache.listq,
                           maxSize := st.cache.maxSize },
                bucket := database_store st.bucket
                  { ID := 0, Name := toString (timeAt st.clock) ++ ".ts",
                    Len := seg.duration, T := timeAt st.clock },
                files := ("./files/" ++ (toString (timeAt st.clock) ++ ".ts")) :: st.files,
                clock := st.clock + 1 },
              FetchEvent.stored (resolve base seg.uri)
                { ID := 0, Name := toString (timeAt st.clock) ++ ".ts",
                  Len := seg.duration, T := timeAt st.clock }, ?_, rfl, ?_, ?_⟩
      · simp only [processSegments, hset, hf, hw]
        rfl
      · intro v
        rfl
      · intro v hv
        simp only [isStoredFor, beq_iff_eq] at hv
        exact ⟨hv.symm, rfl⟩
    | false =>
      refine ⟨{ cache := { cache := resolve base seg.uri :: st.cache.cache,
                           listq := resolve base seg.uri :: st.cache.listq,
                           maxSize := st.cache.maxSize },
                bucket := st.bucket, files := st.files, clock := st.clock + 1 },
              FetchEvent.writeFail (resolve base seg.uri), ?_, rfl, ?_, ?_⟩
      · simp only [processSegments, hset, hf, hw]
        rfl
      · intro v
        rfl
      · intro v hv
        simp [isStoredFor] at hv
  | false =>
    refine ⟨{ cache := { cache := resolve base seg.uri :: st.cache.cache,
                         listq := resolve base seg.uri :: st.cache.listq,
                         maxSize := st.cache.maxSize },
              bucket := st.bucket, files := st.files, clock := st.clock + 1 },
            FetchEvent.dropped (resolve base seg.uri), ?_, rfl, ?_, ?_⟩
    · simp only [processSegments, hset, hf]
      rfl
    · intro v
      rfl
    · intro v hv
      simp [isStoredFor] at hv

theorem countAdmitted_cons_of_false {url : String} {e : FetchEvent}
    (h : isAdmittedFor url e = false) (ev : List FetchEvent) :
    countAdmitted (e :: ev) url = countAdmitted ev url := by
  rw [countAdmitted_cons, h]
  simp

theorem countStored_cons_of_false {url : String} {e : FetchEvent}
    (h : isStoredFor url e = false) (ev : List FetchEvent) :
    countStored (e :: ev) url = countStored ev url := by
  rw [countStored_cons, h]
  simp

theorem procSeg_props (resolve : String → String → String) (fetchOk : String → Bool)
    (writeOk : String → Bool) (timeAt : Nat → Int) (base url : String) :
    ∀ (segs : List (Option Segment)) (st : ProcState),
      st.cache.listq.length + segs.length ≤ st.cache.maxSize →
      (processSegments resolve fetchOk writeOk timeAt base segs st).1.cache.maxSize
          = st.cache.maxSize ∧
      (∀ u, u ∈ st.cache.cache →
        u ∈ (processSegments resolve fetchOk writeOk timeAt base segs st).1.cache.cache) ∧
      (url ∈ st.cache.cache →
        countAdmitted (processSegments resolve fetchOk writeOk timeAt base segs st).2 url = 0) ∧
      countAdmitted (processSegments resolve fetchOk writeOk timeAt base segs st).2 url ≤ 1 ∧
      (0 < countAdmitted (processSegments resolve fetchOk writeOk timeAt base segs st).2 url →
        url ∈ (processSegments resolve fetchOk writeOk timeAt base segs st).1.cache.cache) ∧
      countStored (processSegments resolve fetchOk writeOk timeAt base segs st).2 url ≤
        countAdmitted (processSegments resolve fetchOk writeOk timeAt base segs st).2 url ∧
      (0 < countStored (processSegments resolve fetchOk writeOk timeAt base segs st).2 url →
        fetchOk url = true) := by
  intro segs
  induction segs with
  | nil =>
    intro st _
    refine ⟨rfl, fun u h => h, fun _ => rfl, ?_, ?_, ?_, ?_⟩
    · simp [processSegments, countAdmitted]
    · intro h
      simp [processSegments, countAdmitted] at h
    · simp [processSegments, countAdmitted, countStored]
    · intro h
      simp [processSegments, countStored] at h
  | cons seg? segs ih =>
    intro st h
    cases seg? with
    | none =>
      have h' : st.cache.listq.length + segs.length ≤ st.cache.maxSize := by
        simp only [List.length_cons] at h
        omega
      simpa only [processSegments] using ih st h'
    | some seg =>
      by_cases hmem : resolve base seg.uri ∈ st.cache.cache
      · have h' : st.cache.listq.length + segs.length ≤ st.cache.maxSize := by
          simp only [List.length_cons] at h
          omega
        obtain ⟨ih1, ih2, ih3, ih4, ih5, ih6, ih7⟩ := ih st h'
        rw [processSegments_dup resolve fetchOk writeOk timeAt base seg segs st hmem]
        have had : isAdmittedFor url (FetchEvent.dup (resolve base seg.uri)) = false := rfl
        have hst : isStoredFor url (FetchEvent.dup (resolve base seg.uri)) = false := rfl
        rw [countAdmitted_cons_of_false had, countStored_cons_of_false hst]
        exact ⟨ih1, ih2, ih3, ih4, ih5, ih6, ih7⟩
      · have hroom1 : st.cache.listq.length + 1 ≤ st.cache.maxSize := by
          simp only [List.length_cons] at h
          omega
        obtain ⟨st', X, heq, hcache, hXadm, hXsto⟩ :=
          processSegments_admit resolve fetchOk writeOk timeAt base seg segs st hmem hroom1
        have hroom' : st'.cache.listq.length + segs.length ≤ st'.cache.maxSize := by
          rw [hcache]
          simp only [List.length_cons] at h ⊢
          omega
        obtain ⟨ih1, ih2, ih3, ih4, ih5, ih6, ih7⟩ := ih st' hroom'
        have hmax : st'.cache.maxSize = st.cache.maxSize := by
          rw [hcache]
        have hmono : ∀ u, u ∈ st.cache.cache → u ∈ st'.cache.cache := by
          intro u hu
          rw [hcache]
          exact List.mem_cons_of_mem _ hu
        have hhead : resolve base seg.uri ∈ st'.cache.cache := by
          rw [hcache]
          exact List.mem_cons_self _ _
        rw [heq]
        dsimp only
        have hadA : isStoredFor url (FetchEvent.admitted (resolve base seg.uri)) = false := rfl
        rw [countStored_cons_of_false hadA, countAdmitted_cons,
            countAdmitted_cons_of_false (hXadm url), countStored_cons]
        by_cases hurl : resolve base seg.uri = url
        · have hA0 : countAdmitted
              (processSegments resolve fetchOk writeOk timeAt base segs st').2 url = 0 :=
            ih3 (hurl ▸ hhead)
          have hS0 : countStored
              (processSegments resolve fetchOk writeOk timeAt base segs st').2 url = 0 := by
            omega
          refine ⟨ih1.trans hmax, fun u hu => ih2 u (hmono u hu), ?_, ?_, ?_, ?_, ?_⟩
          · intro hc
            exact absurd (hurl ▸ hc) hmem
          · simp only [isAdmittedFor, hurl, beq_self_eq_true, if_true, hA0]
            omega
          · intro _
            exact ih2 _ (hurl ▸ hhead)
          · simp only [isAdmittedFor, hurl, beq_self_eq_true, if_true, hA0, hS0]
            split <;> omega
          · intro hpos
            by_cases hXs : isStoredFor url X = true
            · exact hurl ▸ (hXsto url hXs).2
            · rw [Bool.not_eq_true] at hXs
              rw [hXs] at hpos
              simp [hS0] at hpos
        · have hbeq : (resolve base seg.uri == url) = false := by
            simp [hurl]
          have hXs : isStoredFor url X = false := by
            cases hXs' : isStoredFor url X
            · rfl
            · exact absurd (hXsto url hXs').1.symm hurl
          rw [hXs]
          simp only [isAdmittedFor, hbeq, Bool.false_eq_true, if_false]
          refine ⟨ih1.trans hmax, fun u hu => ih2 u (hmono u hu), ?_, ?_, ?_, ?_, ?_⟩
          · intro hc
            have := ih3 (hmono url hc)
            omega
          · omega
          · intro hpos
            exact ih5 (by omega)
          · omega
          · intro hpos
            exact ih7 (by omega)

/-- C1: the claim "`RangeQuery(startUnixSeconds, durationMinutes)` returns
exactly the stored records whose key lies in the half-open window
`[encode(start*1e9), encode(start*1e9 + minutes*60*1e9))`" fails on the
code.  With a record at `sampleT` (inside the window for start
`1700000000` s, 1 minute) and a record 300 s later (outside it),
`database_get` returns both: the scan comparison is inverted (it collects
keys `≥ end` and stops at the first key `< end`) and the window end is
computed as `si + li*60*1e9` instead of `si*1e9 + li*60*1e9`. -/
theorem claim_C1_range_query_bug :
    database_get sampleStoreWindow 1700000000 1 =
      [{ sampleItem1 with ID := 1 }, { sampleItemFar with ID := 2 }] ∧
    specRangeQuery sampleStoreWindow 1700000000 1 = [{ sampleItem1 with ID := 1 }] ∧
    database_get sampleStoreWindow 1700000000 1 ≠
      specRangeQuery sampleStoreWindow 1700000000 1 := by
  refine ⟨by decide, by decide, by decide⟩

/-- C2: the claim "`TailN(n)` returns exactly `min(n, total)` most-recent
records, oldest-first; after appends at `T`, `T+1e9`, `T+2e9` it returns
all 3 in order" fails on the code.  After the three appends of Scenario 1
`database_last_5` returns only the 2 oldest records: the copy loop
`for i := len(tmp)-1; i > 0; i--` drops the most recent record (and the
backward scan collects 7, not 5).  The repository's own test
(`TestDatabaseLast5`) expects 3 of 3, so this is a defect in the code. -/
theorem claim_C2_tail_bug :
    database_last_5 sampleStore3 =
      [{ sampleItem1 with ID := 1 }, { sampleItem2 with ID := 2 }] ∧
    (database_last_5 sampleStore3).length = 2 ∧
    database_last_5 sampleStore1 = [] := by
  refine ⟨by decide, by decide, by decide⟩

/-- C3: the claim "`DeleteBefore(cutoff)` removes exactly the records with
key `< cutoff` and leaves every record with key `≥ cutoff` unchanged"
fails on the code: the sweep comparison is inverted.  On a store holding
a single fresh record (key 100) with cutoff 50 the sweep deletes it
(the spec-modelled sweep keeps it), and on a store holding a single
expired record (key 10) with cutoff 50 the sweep keeps it (the
spec-modelled sweep deletes it). -/
theorem claim_C3_sweep_bug :
    (database_worker_sweep sampleStoreFresh 50).1.entries = [] ∧
    (specDeleteBefore sampleStoreFresh 50).entries = sampleStoreFresh.entries ∧
    (database_worker_sweep sampleStoreOld 50).1.entries = sampleStoreOld.entries ∧
    (specDeleteBefore sampleStoreOld 50).entries = [] := by
  refine ⟨by decide, by decide, by decide, by decide⟩

/-- C4: the claim "the sweeper's cutoff is `now` minus the `--tail` value
interpreted as hours, i.e. `flagTail*3600*1e9` nanoseconds" fails on the
code: the subtrahend is `flagTail*60*60*int(time.Nanosecond)` and
`time.Nanosecond` is 1, so with the default `--tail 24` the horizon is
86400 nanoseconds instead of 86400e9. -/
theorem claim_C4_cutoff_bug :
    retentionCutoff 1700000000000000000 24 = 1700000000000000000 - 86400 ∧
    specRetentionCutoff 1700000000000000000 24 = 1700000000000000000 - 86400000000000 ∧
    retentionCutoff 1700000000000000000 24 ≠ specRetentionCutoff 1700000000000000000 24 := by
  refine ⟨by decide, by decide, by decide⟩

/-- C5: the claim "after exactly one append the live manifest contains
exactly one entry whose sequence tag equals that segment's sequence ID"
fails on the code: with one stored record `database_last_5` returns the
empty list (it drops the most recent record), so `handleLiveStream`
answers 404 (`none`).  Moreover on the three-append store the rendered
`#EXT-X-MEDIA-SEQUENCE` is the ID of the *newest* returned record
(`items[len(items)-1].ID` = 2), not the oldest returned record's ID (1)
as claimed. -/
theorem claim_C5_live_manifest_bug :
    buildLive sampleStore1 = none ∧
    buildLive sampleStore3 =
      some { targetDuration := 2, version := 4, mediaSequence := 2,
             entries := [(2, "a.ts"), (2, "b.ts")] } := by
  refine ⟨by decide, by decide⟩

/-- C6: over one `processSegments` run whose segments fit in the dedup
cache's remaining capacity, every polled segment URI produces at most one
store record; a record exists only if the URI was admitted by the cache
and its download succeeded; if the download fails no record exists for it;
each URI is downloaded at most once, and an admitted URI remains in the
cache afterwards, so it is never retried (a later `Set` returns `false`,
permanently dropping the segment). -/
theorem claim_C6_segment_lifecycle (resolve : String → String → String)
    (fetchOk writeOk : String → Bool) (timeAt : Nat → Int) (base : String)
    (segs : List (Option Segment)) (st : ProcState) (url : String)
    (hroom : st.cache.listq.length + segs.length ≤ st.cache.maxSize) :
    countStored (processSegments resolve fetchOk writeOk timeAt base segs st).2 url ≤ 1 ∧
    (0 < countStored (processSegments resolve fetchOk writeOk timeAt base segs st).2 url →
      countAdmitted (processSegments resolve fetchOk writeOk timeAt base segs st).2 url = 1 ∧
      fetchOk url = true) ∧
    (fetchOk url = false →
      countStored (processSegments resolve fetchOk writeOk timeAt base segs st).2 url = 0) ∧
    countAdmitted (processSegments resolve fetchOk writeOk timeAt base segs st).2 url ≤ 1 ∧
    (0 < countAdmitted (processSegments resolve fetchOk writeOk timeAt base segs st).2 url →
      url ∈ (processSegments resolve fetchOk writeOk timeAt base segs st).1.cache.cache) := by
  obtain ⟨h1, h2, h3, h4, h5, h6, h7⟩ :=
    procSeg_props resolve fetchOk writeOk timeAt base url segs st hroom
  refine ⟨le_trans h6 h4, ?_, ?_, h4, h5⟩
  · intro hp
    have hadm : 0 < countAdmitted
        (processSegments resolve fetchOk writeOk timeAt base segs st).2 url :=
      lt_of_lt_of_le hp h6
    exact ⟨by omega, h7 hp⟩
  · intro hf
    by_contra hne
    have hp : 0 < countStored
        (processSegments resolve fetchOk writeOk timeAt base segs st).2 url := by omega
    rw [h7 hp] at hf
    cases hf

/-- C6 witness: one segment, failing download, capacity 5. -/
theorem claim_C6_segment_lifecycle_witness :
    ((initState 5).cache.listq.length +
        ([some { uri := "a", duration := 2 }] : List (Option Segment)).length ≤
      (initState 5).cache.maxSize) ∧
    (countStored (processSegments (fun b s => b ++ s) (fun _ => false) (fun _ => true)
        (fun _ => 0) "x" [some { uri := "a", duration := 2 }] (initState 5)).2 "xa" ≤ 1 ∧
    (0 < countStored (processSegments (fun b s => b ++ s) (fun _ => false) (fun _ => true)
        (fun _ => 0) "x" [some { uri := "a", duration := 2 }] (initState 5)).2 "xa" →
      countAdmitted (processSegments (fun b s => b ++ s) (fun _ => false) (fun _ => true)
        (fun _ => 0) "x" [some { uri := "a", duration := 2 }] (initState 5)).2 "xa" = 1 ∧
      (fun _ : String => false) "xa" = true) ∧
    ((fun _ : String => false) "xa" = false →
      countStored (processSegments (fun b s => b ++ s) (fun _ => false) (fun _ => true)
        (fun _ => 0) "x" [some { uri := "a", duration := 2 }] (initState 5)).2 "xa" = 0) ∧
    countAdmitted (processSegments (fun b s => b ++ s) (fun _ => false) (fun _ => true)
        (fun _ => 0) "x" [some { uri := "a", duration := 2 }] (initState 5)).2 "xa" ≤ 1 ∧
    (0 < countAdmitted (processSegments (fun b s => b ++ s) (fun _ => false) (fun _ => true)
        (fun _ => 0) "x" [some { uri := "a", duration := 2 }] (initState 5)).2 "xa" →
      "xa" ∈ (processSegments (fun b s => b ++ s) (fun _ => false) (fun _ => true)
        (fun _ => 0) "x" [some { uri := "a", duration := 2 }] (initState 5)).1.cache.cache)) :=
  ⟨by decide,
    claim_C6_segment_lifecycle (fun b s => b ++ s) (fun _ => false) (fun _ => true)
      (fun _ => 0) "x" [some { uri := "a", duration := 2 }] (initState 5) "xa" (by decide)⟩

/-- C7: `FIFOCache.Set` returns `true` exactly when the key is absent from
the cache map, leaves the state unchanged when the key is present, records
an admitted key (still present after the call whenever the capacity is at
least 1), and on capacity 2 the sequence a, b, c, a, c yields
true, true, true (evicting a), true (evicting b), false. -/
theorem claim_C7_dedup_contract (c : FIFOCache) (url : String)
    (hp : c.cache.Perm c.listq) (hd : c.listq.Nodup) :
    (((c.Set url).1 = true) ↔ url ∉ c.cache) ∧
    (url ∈ c.cache → (c.Set url).2 = c) ∧
    (url ∉ c.cache → 1 ≤ c.maxSize → url ∈ ((c.Set url).2).cache) ∧
    (runSets (NewFIFOCache 2) ["a", "b", "c", "a", "c"]).1 =
      [true, true, true, true, false] := by
  refine ⟨?_, ?_, ?_, by decide⟩
  · by_cases h : url ∈ c.cache
    · rw [Set_of_mem c url h]
      simp [h]
    · simp only [FIFOCache.Set, if_neg h]
      simp [h]
  · intro h
    rw [Set_of_mem c url h]
  · intro h hms
    have hd' : (url :: c.listq).Nodup :=
      List.Nodup.cons (fun hm => h (hp.mem_iff.mpr hm)) hd
    have hp' : (url :: c.cache).Perm (url :: c.listq) := hp.cons url
    simp only [FIFOCache.Set, if_neg h]
    show url ∈ (evictFuel c.maxSize (url :: c.listq).length (url :: c.cache) (url :: c.listq)).1
    have hperm := evictFuel_perm c.maxSize (url :: c.listq).length
      (url :: c.cache) (url :: c.listq) hp' hd'
    rw [hperm.mem_iff]
    rw [evictFuel_snd _ _ _ _ (Nat.le_add_left _ _)]
    obtain ⟨m, hm⟩ : ∃ m, c.maxSize = m + 1 := ⟨c.maxSize - 1, by omega⟩
    rw [hm, List.take_succ_cons]
    exact List.mem_cons_self _ _

/-- C7 witness: the empty cache of capacity 2 and the key "a". -/
theorem claim_C7_dedup_contract_witness :
    ((NewFIFOCache 2).cache.Perm (NewFIFOCache 2).listq ∧ (NewFIFOCache 2).listq.Nodup) ∧
    (((((NewFIFOCache 2).Set "a").1 = true) ↔ "a" ∉ (NewFIFOCache 2).cache) ∧
    ("a" ∈ (NewFIFOCache 2).cache → ((NewFIFOCache 2).Set "a").2 = NewFIFOCache 2) ∧
    ("a" ∉ (NewFIFOCache 2).cache → 1 ≤ (NewFIFOCache 2).maxSize →
      "a" ∈ (((NewFIFOCache 2).Set "a").2).cache) ∧
    (runSets (NewFIFOCache 2) ["a", "b", "c", "a", "c"]).1 =
      [true, true, true, true, false]) :=
  ⟨⟨by decide, by decide⟩, claim_C7_dedup_contract (NewFIFOCache 2) "a" (by decide) (by decide)⟩

/-- C8: for every capacity `K` and every sequence of `Set`/`Clear`
operations run from a fresh cache, `Size()` never exceeds `K`; with
`K = 0` every further `Set` still returns `true`. -/
theorem claim_C8_capacity (K : Nat) (ops : List CacheOp) :
    (runOps (NewFIFOCache K) ops).Size ≤ K ∧
    (∀ url : String, K = 0 → ((runOps (NewFIFOCache K) ops).Set url).1 = true) := by
  have hinv0 : CacheInv (NewFIFOCache K) := by
    unfold CacheInv NewFIFOCache
    exact ⟨List.Perm.refl _, List.nodup_nil, by simp⟩
  obtain ⟨⟨hp, hd, hlen⟩, hms⟩ := runOps_inv ops (NewFIFOCache K) hinv0
  have hK : (runOps (NewFIFOCache K) ops).maxSize = K := by
    rw [hms]
    rfl
  constructor
  · unfold FIFOCache.Size
    rw [hp.length_eq]
    omega
  · intro url h0
    have hcl : (runOps (NewFIFOCache K) ops).cache.length = 0 := by
      have := hp.length_eq
      omega
    have hempty : (runOps (NewFIFOCache K) ops).cache = [] :=
      List.length_eq_zero.mp hcl
    simp [FIFOCache.Set, hempty]

/-- C8 witness: capacity 0, two admissions, then one more `Set`. -/
theorem claim_C8_capacity_witness :
    (runOps (NewFIFOCache 0) [CacheOp.set "a", CacheOp.set "b"]).Size ≤ 0 ∧
    ((runOps (NewFIFOCache 0) [CacheOp.set "a", CacheOp.set "b"]).Set "c").1 = true :=
  ⟨(claim_C8_capacity 0 [CacheOp.set "a", CacheOp.set "b"]).1,
    (claim_C8_capacity 0 [CacheOp.set "a", CacheOp.set "b"]).2 "c" rfl⟩

/-- C9: on decoding a master manifest the fetch loop's `goto` exits the
variant loop after its first iteration: the next polled URL is the first
listed variant resolved against the current base, the state is untouched
and no segment fetch is issued, so for a master listing two variants the
second variant's URI is never fetched; in general the selected variant is
the head of the list. -/
theorem claim_C9_first_variant (resolve : String → String → String)
    (fetchOk writeOk : String → Bool) (timeAt : Nat → Int)
    (cur v1 v2 : String) (vs : List String) (st : ProcState) :
    pollStep resolve fetchOk writeOk timeAt cur (Playlist.master [v1, v2]) st =
      (resolve cur v1, st, []) ∧
    masterNext resolve cur (v1 :: vs) = resolve cur v1 :=
  ⟨rfl, rfl⟩

/-- C10: storing an item whose arrival timestamp equals that of an
already-stored record silently replaces it under the same 8-byte key: the
entry list stays sorted with pairwise-distinct keys (never two records
with the same timestamp), the record count does not increase, and the key
now maps to the new item (with the freshly assigned sequence ID) — the
earlier record is gone. -/
theorem claim_C10_same_timestamp_replaces (b : Bucket) (it : DatabaseItem)
    (hs : keysSorted b.entries) (hm : keyOf it.T ∈ b.entries.map Prod.fst) :
    keysSorted (database_store b it).entries ∧
    (database_store b it).entries.length = b.entries.length ∧
    lookupKey (keyOf it.T) (database_store b it).entries =
      some { it with ID := (b.seq + 1) % 2 ^ 64 } ∧
    ((database_store b it).entries.map Prod.fst).Nodup := by
  have h1 : keysSorted (database_store b it).entries :=
    putEntry_sorted (keyOf it.T) { it with ID := (b.seq + 1) % 2 ^ 64 } b.entries hs
  refine ⟨h1, ?_, ?_, keysSorted_nodup _ h1⟩
  · exact putEntry_length_of_mem (keyOf it.T) { it with ID := (b.seq + 1) % 2 ^ 64 }
      b.entries hs hm
  · exact lookupKey_putEntry (keyOf it.T) { it with ID := (b.seq + 1) % 2 ^ 64 } b.entries

/-- C10 witness: `sampleStore1` already holds a record at `sampleT`;
storing `sampleItemDupT` (same nanosecond instant) replaces it. -/
theorem claim_C10_same_timestamp_replaces_witness :
    (keysSorted sampleStore1.entries ∧
      keyOf sampleItemDupT.T ∈ sampleStore1.entries.map Prod.fst) ∧
    (keysSorted (database_store sampleStore1 sampleItemDupT).entries ∧
    (database_store sampleStore1 sampleItemDupT).entries.length =
      sampleStore1.entries.length ∧
    lookupKey (keyOf sampleItemDupT.T) (database_store sampleStore1 sampleItemDupT).entries =
      some { sampleItemDupT with ID := (sampleStore1.seq + 1) % 2 ^ 64 } ∧
    ((database_store sampleStore1 sampleItemDupT).entries.map Prod.fst).Nodup) :=
  ⟨⟨by decide, by decide⟩,
    claim_C10_same_timestamp_replaces sampleStore1 sampleItemDupT (by decide) (by decide)⟩
